import Mathlib

/-
Verification of the Splitsies file splitter/joiner (src/src/main.cpp).

Shallow embedding conventions:
* file contents are `List Nat` (byte sequences); filenames and string
  parameters are `List Char` (the `.data` of a `String`);
* `unsigned int` arithmetic is `Nat` arithmetic reduced `% 2 ^ 32` exactly
  where the C++ type forces a reduction;
* the filesystem side effects of `split_file` are captured by the returned
  `SplitResult`: the list of written parts (full path, bytes) in write order,
  and whether the `output` subdirectory was used;
* `unsplit_file` receives the directory listing as a `List Entry` and returns
  the outcome together with the final on-disk contents of the output file
  (`none` would mean the file was never created; the output stream open is
  modelled as succeeding, so an empty file exists from that point on).
-/

namespace Splitsies

/-- Modulus of C++ `unsigned int` arithmetic (32-bit). -/
def U32 : Nat := 2 ^ 32

/-- Test whether `p` occurs at the start of `l` (helper for substring search,
mirroring the behaviour of `std::string::find`). -/
def startsWithL : List Char → List Char → Bool
  | [], _ => true
  | _ :: _, [] => false
  | a :: as, b :: bs => a == b && startsWithL as bs

/-- Substring occurrence test: `containsSub needle hay = true` iff `needle`
occurs contiguously inside `hay`.  Mirrors
`hay.find(needle) != std::string::npos` (the empty needle is always found). -/
def containsSub (needle : List Char) : List Char → Bool
  | [] => needle.isEmpty
  | c :: t => startsWithL needle (c :: t) || containsSub needle t

/-- Extension resolution of `split_file`, from
`(extension.find(".") != std::string::npos) ? extension : "." + extension`
(main.cpp line 202): if the extension already contains a `.` it is used
verbatim, otherwise a `.` is prepended (also when the extension is empty). -/
def resolveExt (ext : List Char) : List Char :=
  if containsSub ['.'] ext then ext else '.' :: ext

/-- Filename of part number `i`, from main.cpp lines 200-202:
`(use_output_folder ? "output/" : "") + base_name + suffix + to_string(i)`
followed by the resolved extension. -/
def part_name (useFolder : Bool) (base suff ext : List Char) (i : Nat) : List Char :=
  (if useFolder then ("output/").data else []) ++ base ++ suff ++ (Nat.repr i).data ++ resolveExt ext

/-- Writing loop of `split_file` (main.cpp lines 199-215): while bytes remain,
write `min byte_limit remaining` bytes starting at `offset` into the file for
part number `part`, then advance.  `offset`, `remaining` and `part` are
`unsigned int` in the source; the loop keeps `offset + remaining` constant and
`remaining < 2 ^ 32`, so no reduction occurs inside the loop.  The `L = 0`
guard is dead code for every caller (the front end rejects limits below 1000);
in C++ a zero limit would loop forever. -/
def split_loop (full : List Nat) (L : Nat) (useFolder : Bool) (base suff ext : List Char)
    (offset remaining part : Nat) : List (List Char × List Nat) :=
  if h : remaining = 0 ∨ L = 0 then []
  else
    let chunk := min L remaining
    (part_name useFolder base suff ext part, (full.drop offset).take chunk)
      :: split_loop full L useFolder base suff ext (offset + chunk) (remaining - chunk) (part + 1)
termination_by remaining
decreasing_by
  push_neg at h
  omega

/-- Result of the split operation: either the early `FileNotFound` failure
(main.cpp lines 169-173, before any output or directory creation), or success
with the parts written (in write order) and whether the `output` subdirectory
was used. -/
inductive SplitResult where
  | fileNotFound : SplitResult
  | ok (usedFolder : Bool) (parts : List (List Char × List Nat)) : SplitResult
deriving DecidableEq

/-- Recorded total length: `unsigned int total_size = full_contents.size()`
(main.cpp line 178) truncates the `size_t` length modulo `2 ^ 32`. -/
def total_size_of (full : List Nat) : Nat := full.length % U32

/-- Computed part count: `(total_size + byte_limit - 1) / byte_limit`
(main.cpp line 180) in `unsigned int` arithmetic, so the numerator itself is
reduced modulo `2 ^ 32` before the division. -/
def num_splits_of (full : List Nat) (L : Nat) : Nat :=
  ((total_size_of full + L - 1) % U32) / L

/-- Embedding of `split_file` (main.cpp lines 163-219).  `source` is `none`
when the path does not reference an existing readable file (the `is_open`
check fails); the function then aborts before any effect.  Otherwise the whole
file is read, the truncated size and part count are computed, the `output`
subdirectory is used exactly when `num_splits > 10`, and the writing loop
runs.  Directory creation and part-file creation are modelled as succeeding. -/
def split_file (source : Option (List Nat)) (L : Nat) (base suff ext : List Char) :
    SplitResult :=
  match source with
  | none => .fileNotFound
  | some full =>
    let total_size := total_size_of full
    let useFolder := decide (10 < num_splits_of full L)
    .ok useFolder (split_loop full L useFolder base suff ext 0 total_size 0)

/-- Parts written by a split (empty on the `FileNotFound` abort). -/
def partsOf : SplitResult → List (List Char × List Nat)
  | .fileNotFound => []
  | .ok _ ps => ps

/-- Whether the split placed its parts in the `output` subdirectory. -/
def usedFolderOf : SplitResult → Bool
  | .fileNotFound => false
  | .ok uf _ => uf

/-- Process exit status of the split operation. -/
def split_exit : SplitResult → Nat
  | .fileNotFound => 1
  | .ok _ _ => 0

/-- Strict lexicographic comparison of filename strings by character code,
mirroring the `operator<` used by `std::sort` on the collected paths
(main.cpp line 134); for entries of one directory this is ordinary string
comparison of the filenames. -/
def lexLt : List Char → List Char → Bool
  | _, [] => false
  | [], _ :: _ => true
  | a :: as, b :: bs =>
    if a.toNat < b.toNat then true
    else if b.toNat < a.toNat then false
    else lexLt as bs

/-- Reflexive companion of `lexLt`. -/
def lexLe (a b : List Char) : Bool := !lexLt b a

/-- Insert into a sorted list (helper of the sorting model). -/
def insertLe {α : Type} (le : α → α → Bool) (a : α) : List α → List α
  | [] => [a]
  | b :: t => if le a b then a :: b :: t else b :: insertLe le a t

/-- Sorting model for `std::sort(file_paths.begin(), file_paths.end())`
(main.cpp line 134): produces the ascending reordering of the input; since
directory entries have pairwise distinct names, any correct sort produces this
exact list. -/
def sortLe {α : Type} (le : α → α → Bool) : List α → List α
  | [] => []
  | a :: t => insertLe le a (sortLe le t)

/-- Directory entry as seen by the joiner: filename, whether it is a regular
file, and its byte contents (reads are modelled as succeeding). -/
structure Entry where
  name : List Char
  regular : Bool
  contents : List Nat
deriving DecidableEq

/-- Comparison of entries by filename, as `std::sort` compares the collected
paths of one directory. -/
def entryLe (a b : Entry) : Bool := lexLe a.name b.name

/-- Filter of the joiner's collection loop (main.cpp lines 128-132):
regular files whose filename contains the suffix token as a substring. -/
def matchesSuffix (suff : List Char) (e : Entry) : Bool :=
  e.regular && containsSub suff e.name

/-- Outcome of the join operation. -/
inductive UnsplitOutcome where
  | ok : UnsplitOutcome
  | directoryNotFound : UnsplitOutcome
  | noMatchingFiles : UnsplitOutcome
deriving DecidableEq

/-- Embedding of `unsplit_file` (main.cpp lines 110-160).  The output stream
is opened (creating or truncating the output file) before anything else, and
only then is the folder checked with `fs::is_directory`; the second component
is the final on-disk contents of the output file.  Matching entries are
collected, sorted, and concatenated in sorted order. -/
def unsplit_file (folderIsDir : Bool) (entries : List Entry) (suff : List Char) :
    UnsplitOutcome × Option (List Nat) :=
  if !folderIsDir then (.directoryNotFound, some [])
  else
    let matched := sortLe entryLe (entries.filter (matchesSuffix suff))
    if matched.isEmpty then (.noMatchingFiles, some [])
    else (.ok, some ((matched.map Entry.contents).flatten))

/-- Process exit status of the join operation. -/
def unsplit_exit : UnsplitOutcome → Nat
  | .ok => 0
  | .directoryNotFound => 1
  | .noMatchingFiles => 1

/-- Partition of a byte list into consecutive chunks of `L` bytes (last chunk
possibly shorter): the contents the writing loop emits. -/
def chunksOf (L : Nat) (l : List Nat) : List (List Nat) :=
  if h : L = 0 ∨ l = [] then [] else l.take L :: chunksOf L (l.drop L)
termination_by l.length
decreasing_by
  push_neg at h
  have hpos : 0 < l.length := List.length_pos.mpr h.2
  simp only [List.length_drop]
  omega

end Splitsies

namespace Splitsies

theorem startsWithL_self_append (s t : List Char) : startsWithL s (s ++ t) = true := by
  induction s with
  | nil => rfl
  | cons a as ih => simp [startsWithL, ih]

theorem containsSub_nil_needle (hay : List Char) : containsSub [] hay = true := by
  cases hay with
  | nil => rfl
  | cons c t => simp [containsSub, startsWithL]

theorem containsSub_self_append (s b : List Char) : containsSub s (s ++ b) = true := by
  cases s with
  | nil => exact containsSub_nil_needle _
  | cons a as => simp [containsSub, startsWithL, startsWithL_self_append]

theorem containsSub_cons (s t : List Char) (c : Char) (h : containsSub s t = true) :
    containsSub s (c :: t) = true := by
  simp [containsSub, h]

theorem containsSub_append_of (s t a : List Char) (h : containsSub s t = true) :
    containsSub s (a ++ t) = true := by
  induction a with
  | nil => simpa using h
  | cons c cs ih => simpa using containsSub_cons s (cs ++ t) c ih

theorem charEq_of_toNat_eq {a b : Char} (h : a.toNat = b.toNat) : a = b :=
  Char.ext (UInt32.ext h)

theorem lexLt_asymm : ∀ (a b : List Char), lexLt a b = true → lexLt b a = false := by
  intro a
  induction a with
  | nil =>
    intro b hb
    cases b with
    | nil => simp [lexLt] at hb
    | cons c t => rfl
  | cons x xs ih =>
    intro b hb
    cases b with
    | nil => simp [lexLt] at hb
    | cons y ys =>
      simp only [lexLt] at hb ⊢
      by_cases h1 : x.toNat < y.toNat
      · have h2 : ¬ y.toNat < x.toNat := by omega
        simp [h1, h2]
      · by_cases h2 : y.toNat < x.toNat
        · simp [h1, h2] at hb
        · simp [h1, h2] at hb ⊢
          exact ih ys hb

theorem lexLt_trichotomy : ∀ (a b : List Char), lexLt a b = true ∨ a = b ∨ lexLt b a = true := by
  intro a
  induction a with
  | nil =>
    intro b
    cases b with
    | nil => exact Or.inr (Or.inl rfl)
    | cons c t => exact Or.inl rfl
  | cons x xs ih =>
    intro b
    cases b with
    | nil => exact Or.inr (Or.inr rfl)
    | cons y ys =>
      by_cases h1 : x.toNat < y.toNat
      · exact Or.inl (by simp [lexLt, h1])
      · by_cases h2 : y.toNat < x.toNat
        · exact Or.inr (Or.inr (by simp [lexLt, h2]))
        · have hxy : x = y := charEq_of_toNat_eq (by omega)
          rcases ih ys with h | h | h
          · exact Or.inl (by simp [lexLt, h1, h2, h])
          · exact Or.inr (Or.inl (by rw [hxy, h]))
          · exact Or.inr (Or.inr (by simp [lexLt, h1, h2, h]))

theorem lexLt_trans : ∀ (a b c : List Char),
    lexLt a b = true → lexLt b c = true → lexLt a c = true := by
  intro a
  induction a with
  | nil =>
    intro b c hab hbc
    cases b with
    | nil => simp [lexLt] at hab
    | cons y ys =>
      cases c with
      | nil => simp [lexLt] at hbc
      | cons z zs => rfl
  | cons x xs ih =>
    intro b c hab hbc
    cases b with
    | nil => simp [lexLt] at hab
    | cons y ys =>
      cases c with
      | nil => simp [lexLt] at hbc
      | cons z zs =>
        simp only [lexLt] at hab hbc ⊢
        by_cases h1 : x.toNat < y.toNat
        · by_cases h2 : y.toNat < z.toNat
          · simp [show x.toNat < z.toNat by omega]
          · by_cases h3 : z.toNat < y.toNat
            · simp [h2, h3] at hbc
            · simp [show x.toNat < z.toNat by omega]
        · by_cases h1' : y.toNat < x.toNat
          · simp [h1, h1'] at hab
          · simp [h1, h1'] at hab
            by_cases h2 : y.toNat < z.toNat
            · simp [show x.toNat < z.toNat by omega]
            · by_cases h3 : z.toNat < y.toNat
              · simp [h2, h3] at hbc
              · simp [h2, h3] at hbc
                have h4 : ¬ x.toNat < z.toNat := by omega
                have h5 : ¬ z.toNat < x.toNat := by omega
                simp [h4, h5]
                exact ih ys zs hab hbc

theorem lexLt_append_left : ∀ (p a b : List Char), lexLt (p ++ a) (p ++ b) = lexLt a b := by
  intro p
  induction p with
  | nil => intro a b; rfl
  | cons c t ih => intro a b; simp [List.cons_append, lexLt, ih]

theorem lexLt_cons_of_lt {a b : Char} (as bs : List Char) (h : a.toNat < b.toNat) :
    lexLt (a :: as) (b :: bs) = true := by
  simp [lexLt, h]

theorem lexLe_total (a b : List Char) : lexLe a b = true ∨ lexLe b a = true := by
  cases hba : lexLt b a with
  | false => exact Or.inl (by simp [lexLe, hba])
  | true => exact Or.inr (by simp [lexLe, lexLt_asymm _ _ hba])

theorem lexLe_trans (a b c : List Char) (hab : lexLe a b = true) (hbc : lexLe b c = true) :
    lexLe a c = true := by
  simp only [lexLe, Bool.not_eq_true'] at hab hbc ⊢
  rcases lexLt_trichotomy b c with h | h | h
  · cases hca : lexLt c a with
    | false => rfl
    | true =>
      have := lexLt_trans b c a h hca
      rw [this] at hab
      cases hab
  · rw [← h]
    exact hab
  · rw [h] at hbc
    cases hbc

theorem entryLe_total (a b : Entry) : entryLe a b = true ∨ entryLe b a = true :=
  lexLe_total a.name b.name

theorem entryLe_trans (a b c : Entry) (hab : entryLe a b = true) (hbc : entryLe b c = true) :
    entryLe a c = true :=
  lexLe_trans a.name b.name c.name hab hbc

end Splitsies

namespace Splitsies

theorem insertLe_perm {α : Type} (le : α → α → Bool) (a : α) (l : List α) :
    (insertLe le a l).Perm (a :: l) := by
  induction l with
  | nil => exact List.Perm.refl _
  | cons b t ih =>
    simp only [insertLe]
    by_cases h : le a b = true
    · rw [if_pos h]
    · rw [if_neg h]
      exact (ih.cons b).trans (List.Perm.swap a b t)

theorem mem_insertLe {α : Type} (le : α → α → Bool) (a x : α) (l : List α)
    (h : x ∈ insertLe le a l) : x = a ∨ x ∈ l := by
  have := (insertLe_perm le a l).mem_iff.mp h
  simpa using this

theorem pairwise_insertLe {α : Type} (le : α → α → Bool)
    (htot : ∀ a b, le a b = true ∨ le b a = true)
    (htrans : ∀ a b c, le a b = true → le b c = true → le a c = true)
    (a : α) (l : List α) (h : l.Pairwise (fun x y => le x y = true)) :
    (insertLe le a l).Pairwise (fun x y => le x y = true) := by
  induction l with
  | nil => simp [insertLe]
  | cons b t ih =>
    rcases List.pairwise_cons.mp h with ⟨hb, ht⟩
    simp only [insertLe]
    by_cases hab : le a b = true
    · rw [if_pos hab]
      refine List.pairwise_cons.mpr ⟨?_, h⟩
      intro x hx
      rcases List.mem_cons.mp hx with rfl | hx
      · exact hab
      · exact htrans a b x hab (hb x hx)
    · rw [if_neg hab]
      refine List.pairwise_cons.mpr ⟨?_, ih ht⟩
      intro x hx
      rcases mem_insertLe le a x t hx with hxa | hx
      · rw [hxa]
        rcases htot a b with h' | h'
        · exact absurd h' hab
        · exact h'
      · exact hb x hx

theorem sortLe_pairwise {α : Type} (le : α → α → Bool)
    (htot : ∀ a b, le a b = true ∨ le b a = true)
    (htrans : ∀ a b c, le a b = true → le b c = true → le a c = true)
    (l : List α) : (sortLe le l).Pairwise (fun x y => le x y = true) := by
  induction l with
  | nil => simp [sortLe]
  | cons a t ih => exact pairwise_insertLe le htot htrans a _ ih

theorem sortLe_perm {α : Type} (le : α → α → Bool) (l : List α) :
    (sortLe le l).Perm l := by
  induction l with
  | nil => exact List.Perm.refl _
  | cons a t ih =>
    simp only [sortLe]
    exact (insertLe_perm le a (sortLe le t)).trans (ih.cons a)

theorem insertLe_of_forall {α : Type} (le : α → α → Bool) (a : α) (l : List α)
    (h : ∀ x ∈ l, le a x = true) : insertLe le a l = a :: l := by
  cases l with
  | nil => rfl
  | cons b t => simp [insertLe, h b (List.mem_cons_self b t)]

theorem sortLe_eq_self {α : Type} (le : α → α → Bool) (l : List α)
    (h : l.Pairwise (fun x y => le x y = true)) : sortLe le l = l := by
  induction l with
  | nil => rfl
  | cons a t ih =>
    rcases List.pairwise_cons.mp h with ⟨ha, ht⟩
    simp only [sortLe, ih ht]
    exact insertLe_of_forall le a t ha

end Splitsies

namespace Splitsies

theorem ceil_one (L rem : Nat) (hL : 1 ≤ L) (h1 : 1 ≤ rem) (h2 : rem ≤ L) :
    (rem + L - 1) / L = 1 := by
  have hlo := (Nat.le_div_iff_mul_le (show 0 < L by omega)).mpr
    (show 1 * L ≤ rem + L - 1 by omega)
  have hhi := (Nat.div_lt_iff_lt_mul (show 0 < L by omega)).mpr
    (show rem + L - 1 < 2 * L by omega)
  omega

theorem ceil_step (L rem : Nat) (hL : 1 ≤ L) (hrem : 1 ≤ rem) :
    (rem + L - 1) / L = (rem - L + L - 1) / L + 1 := by
  by_cases hc : rem ≤ L
  · have h1 : rem - L = 0 := by omega
    rw [h1, ceil_one L rem hL hrem hc]
    rw [Nat.div_eq_of_lt (show 0 + L - 1 < L by omega)]
  · rw [show rem + L - 1 = (rem - L + L - 1) + L by omega,
      Nat.add_div_right _ (show 0 < L by omega)]

theorem chunksOf_nil (L : Nat) : chunksOf L [] = [] := by
  rw [chunksOf]
  simp

theorem chunksOf_flatten (L : Nat) (hL : 1 ≤ L) :
    ∀ (l : List Nat), (chunksOf L l).flatten = l := by
  intro l
  induction l using chunksOf.induct L with
  | case1 x hx =>
    have hx' : x = [] := by
      rcases hx with h | h
      · omega
      · exact h
    rw [hx', chunksOf_nil]
    rfl
  | case2 x hx ih =>
    rw [chunksOf, dif_neg hx]
    simp only [List.flatten_cons, ih, List.take_append_drop]

theorem chunksOf_length (L : Nat) (hL : 1 ≤ L) :
    ∀ (l : List Nat), (chunksOf L l).length = (l.length + L - 1) / L := by
  intro l
  induction l using chunksOf.induct L with
  | case1 x hx =>
    have hx' : x = [] := by
      rcases hx with h | h
      · omega
      · exact h
    rw [hx', chunksOf_nil]
    rw [Nat.div_eq_of_lt (show [].length + L - 1 < L by simp; omega)]
    rfl
  | case2 x hx ih =>
    rw [chunksOf, dif_neg hx]
    push_neg at hx
    have hx0 : x.length ≠ 0 := fun h0 => hx.2 (List.length_eq_zero.mp h0)
    simp only [List.length_cons, ih, List.length_drop]
    rw [ceil_step L x.length hL (by omega)]

theorem chunksOf_sizes (L : Nat) (hL : 1 ≤ L) :
    ∀ (l : List Nat), l ≠ [] →
      (chunksOf L l).map List.length =
        List.replicate ((l.length + L - 1) / L - 1) L
          ++ [if l.length % L = 0 then L else l.length % L] := by
  intro l
  induction l using chunksOf.induct L with
  | case1 x hx =>
    intro hne
    rcases hx with h | h
    · omega
    · exact absurd h hne
  | case2 x hx ih =>
    intro hne
    rw [chunksOf, dif_neg hx]
    push_neg at hx
    have hx0 : x.length ≠ 0 := fun h0 => hx.2 (List.length_eq_zero.mp h0)
    by_cases hc : x.length ≤ L
    · have hdrop : x.drop L = [] :=
        List.length_eq_zero.mp (by rw [List.length_drop]; omega)
      rw [hdrop, chunksOf_nil]
      simp only [List.map_cons, List.map_nil, List.length_take]
      rw [ceil_one L x.length hL (by omega) hc]
      simp only [Nat.sub_self, List.replicate_zero, List.nil_append]
      by_cases he : x.length = L
      · rw [he]
        simp [Nat.mod_self]
      · have hlt : x.length < L := by omega
        rw [Nat.mod_eq_of_lt hlt]
        rw [Nat.min_eq_right (by omega)]
        simp [hx0]
    · have hdne : x.drop L ≠ [] := by
        intro h0
        have := congrArg List.length h0
        rw [List.length_drop] at this
        simp at this
        omega
      rw [List.map_cons, ih hdne]
      simp only [List.length_take, List.length_drop]
      have hmin : min L x.length = L := Nat.min_eq_left (by omega)
      have hmod : (x.length - L) % L = x.length % L := by
        conv_rhs => rw [show x.length = (x.length - L) + L by omega]
        rw [Nat.add_mod_right]
      have hn := ceil_step L x.length hL (by omega)
      have hn1 : 1 ≤ (x.length - L + L - 1) / L :=
        (Nat.le_div_iff_mul_le (show 0 < L by omega)).mpr (by omega)
      rw [hmin, hmod, hn]
      rw [show (x.length - L + L - 1) / L + 1 - 1
            = ((x.length - L + L - 1) / L - 1) + 1 by omega]
      rw [List.replicate_succ]
      simp

end Splitsies

namespace Splitsies

theorem split_loop_zero (full : List Nat) (L : Nat) (uf : Bool) (b s e : List Char)
    (off p : Nat) : split_loop full L uf b s e off 0 p = [] := by
  rw [split_loop]
  simp

theorem split_loop_fst (full : List Nat) (L : Nat) (uf : Bool) (b s e : List Char)
    (hL : 1 ≤ L) : ∀ (offset remaining part : Nat),
    (split_loop full L uf b s e offset remaining part).map Prod.fst
      = (List.range' part ((remaining + L - 1) / L)).map (part_name uf b s e) := by
  intro offset remaining part
  induction offset, remaining, part using split_loop.induct full L uf b s e with
  | case1 off rem p h =>
    have hr : rem = 0 := by
      rcases h with h | h
      · exact h
      · omega
    rw [hr, split_loop_zero]
    rw [Nat.div_eq_of_lt (show 0 + L - 1 < L by omega)]
    rfl
  | case2 off rem p h c ih =>
    rw [split_loop, dif_neg h]
    push_neg at h
    simp only [List.map_cons]
    rw [ih]
    rw [show rem - min L rem = rem - L by omega]
    rw [show (rem + L - 1) / L = (rem - L + L - 1) / L + 1 from
      ceil_step L rem hL (by omega)]
    rw [List.range'_succ]
    rfl

theorem split_loop_length (full : List Nat) (L : Nat) (uf : Bool) (b s e : List Char)
    (hL : 1 ≤ L) (offset remaining part : Nat) :
    (split_loop full L uf b s e offset remaining part).length
      = (remaining + L - 1) / L := by
  have h := congrArg List.length (split_loop_fst full L uf b s e hL offset remaining part)
  simpa using h

theorem split_loop_snd (full : List Nat) (L : Nat) (uf : Bool) (b s e : List Char)
    (hL : 1 ≤ L) : ∀ (offset remaining part : Nat), offset + remaining ≤ full.length →
    (split_loop full L uf b s e offset remaining part).map Prod.snd
      = chunksOf L ((full.drop offset).take remaining) := by
  intro offset remaining part
  induction offset, remaining, part using split_loop.induct full L uf b s e with
  | case1 off rem p h =>
    intro hlen
    have hr : rem = 0 := by
      rcases h with h | h
      · exact h
      · omega
    rw [hr, split_loop_zero]
    rw [List.take_zero, chunksOf_nil]
    rfl
  | case2 off rem p h c ih =>
    intro hlen
    rw [split_loop, dif_neg h]
    push_neg at h
    simp only [List.map_cons]
    have hne : (full.drop off).take rem ≠ [] := by
      intro h0
      have := congrArg List.length h0
      rw [List.length_take, List.length_drop] at this
      simp at this
      omega
    have hcond : ¬(L = 0 ∨ (full.drop off).take rem = []) := by
      push_neg
      exact ⟨by omega, hne⟩
    conv_rhs => rw [chunksOf, dif_neg hcond]
    rw [ih (by omega)]
    congr 1
    · rw [List.take_take]
    · rw [List.drop_take, List.drop_drop]
      have hceq : c = min L rem := rfl
      rw [hceq]
      by_cases hc : rem ≤ L
      · rw [show min L rem = rem by omega]
        rw [Nat.sub_self, show rem - L = 0 by omega]
        rw [List.take_zero, List.take_zero, chunksOf_nil]
      · rw [show min L rem = L by omega]

end Splitsies

namespace Splitsies

theorem split_file_some (full : List Nat) (L : Nat) (b s e : List Char) :
    split_file (some full) L b s e
      = SplitResult.ok (decide (10 < num_splits_of full L))
          (split_loop full L (decide (10 < num_splits_of full L)) b s e
            0 (total_size_of full) 0) := rfl

theorem partsOf_ok (uf : Bool) (ps : List (List Char × List Nat)) :
    partsOf (SplitResult.ok uf ps) = ps := rfl

theorem lexLt_repr_append {i j : Nat} (hij : i < j) (hj : j ≤ 9) (e1 e2 : List Char) :
    lexLt ((Nat.repr i).data ++ e1) ((Nat.repr j).data ++ e2) = true := by
  interval_cases j <;> interval_cases i <;>
    exact lexLt_cons_of_lt _ _ (by decide)

theorem containsSub_part_name (uf : Bool) (b s e : List Char) (i : Nat) :
    containsSub s (part_name uf b s e i) = true := by
  simp only [part_name, List.append_assoc]
  exact containsSub_append_of _ _ _ (containsSub_append_of _ _ _
    (containsSub_self_append _ _))

theorem lexLt_part_name {i j : Nat} (uf : Bool) (b s e : List Char)
    (hij : i < j) (hj : j ≤ 9) :
    lexLt (part_name uf b s e i) (part_name uf b s e j) = true := by
  simp only [part_name, List.append_assoc]
  rw [lexLt_append_left, lexLt_append_left, lexLt_append_left]
  exact lexLt_repr_append hij hj _ _

end Splitsies

namespace Splitsies

theorem unsplit_file_true (entries : List Entry) (suff : List Char) :
    unsplit_file true entries suff =
      if (sortLe entryLe (entries.filter (matchesSuffix suff))).isEmpty
      then (UnsplitOutcome.noMatchingFiles, some [])
      else (UnsplitOutcome.ok,
        some ((sortLe entryLe (entries.filter (matchesSuffix suff))).map
          Entry.contents).flatten) := rfl

/-- C7: a split invocation whose source path does not reference an existing
readable file fails with the `FileNotFound` outcome and aborts before any
output: no part is written, no `output` subdirectory is used, and the exit
status is the failure status.  The open check (main.cpp lines 169-173) runs
before the directory creation and the writing loop. -/
theorem split_file_not_found (L : Nat) (base suff ext : List Char) :
    split_file none L base suff ext = SplitResult.fileNotFound
    ∧ partsOf (split_file none L base suff ext) = []
    ∧ usedFolderOf (split_file none L base suff ext) = false
    ∧ split_exit (split_file none L base suff ext) = 1 :=
  ⟨rfl, rfl, rfl, rfl⟩

/-- C9: the joiner opens (creates or truncates) the output file before
checking that the folder is a directory, so when the folder does not resolve
to a directory it fails with `DirectoryNotFound` and still leaves an empty
output file on disk. -/
theorem join_dir_missing (entries : List Entry) (suff : List Char) :
    unsplit_file false entries suff = (UnsplitOutcome.directoryNotFound, some [])
    ∧ unsplit_exit UnsplitOutcome.directoryNotFound = 1 :=
  ⟨rfl, rfl⟩

/-- C6: when no directory entry is a regular file whose name contains the
suffix token, the join fails with `NoMatchingFiles` (exit status 1) and the
output file on disk is empty (it exists as a side effect of opening the
output stream). -/
theorem no_matching_files (entries : List Entry) (suff : List Char)
    (h : entries.filter (matchesSuffix suff) = []) :
    unsplit_file true entries suff = (UnsplitOutcome.noMatchingFiles, some [])
    ∧ unsplit_exit UnsplitOutcome.noMatchingFiles = 1 := by
  refine ⟨?_, rfl⟩
  rw [unsplit_file_true, h]
  rfl

/-- Witness for C6 at a concrete non-matching listing. -/
theorem no_matching_files_witness :
    [Entry.mk ("x").data true [1]].filter (matchesSuffix ("_part").data) = []
    ∧ (unsplit_file true [Entry.mk ("x").data true [1]] ("_part").data
        = (UnsplitOutcome.noMatchingFiles, some [])
      ∧ unsplit_exit UnsplitOutcome.noMatchingFiles = 1) :=
  ⟨by decide, no_matching_files _ _ (by decide)⟩

/-- C10: splitting an existing empty file with an accepted limit (the front
end accepts sizes in `[1000, 2^31 - 1]`) succeeds with exit status 0, writes
zero parts, and uses no `output` subdirectory: the computed part count is 0,
so the writing loop never runs. -/
theorem split_empty_file (L : Nat) (base suff ext : List Char)
    (h1 : 1000 ≤ L) (h2 : L ≤ 2 ^ 31 - 1) :
    split_file (some []) L base suff ext = SplitResult.ok false []
    ∧ split_exit (split_file (some []) L base suff ext) = 0 := by
  have h2' : L ≤ 2147483647 := by norm_num at h2; omega
  have hts : total_size_of [] = 0 := by simp [total_size_of]
  have hns : num_splits_of [] L = 0 := by
    rw [num_splits_of, hts]
    rw [Nat.mod_eq_of_lt (show 0 + L - 1 < U32 by norm_num [U32]; omega)]
    exact Nat.div_eq_of_lt (by omega)
  have hmain : split_file (some []) L base suff ext = SplitResult.ok false [] := by
    rw [split_file_some, hns, hts, split_loop_zero]
    rfl
  exact ⟨hmain, by rw [hmain]; rfl⟩

/-- Witness for C10 at limit 1000. -/
theorem split_empty_file_witness :
    1000 ≤ (1000 : Nat) ∧ (1000 : Nat) ≤ 2 ^ 31 - 1
    ∧ (split_file (some []) 1000 ("a").data ("_part").data []
        = SplitResult.ok false []
      ∧ split_exit (split_file (some []) 1000 ("a").data ("_part").data []) = 0) :=
  ⟨by norm_num, by norm_num,
    split_empty_file 1000 _ _ _ (by norm_num) (by norm_num)⟩

/-- C5: the `output` subdirectory is used exactly when the computed part
count `num_splits` exceeds 10: all part paths then start with `output/`;
otherwise the parts are written beside the working directory, their paths
being exactly base, suffix, index and resolved extension with no folder
component. -/
theorem output_folder_threshold (full : List Nat) (L : Nat) (base suff ext : List Char)
    (hL : 1 ≤ L) :
    (10 < num_splits_of full L →
      usedFolderOf (split_file (some full) L base suff ext) = true
      ∧ ∀ p ∈ partsOf (split_file (some full) L base suff ext),
          ∃ rest, p.1 = ("output/").data ++ rest)
    ∧ (num_splits_of full L ≤ 10 →
      usedFolderOf (split_file (some full) L base suff ext) = false
      ∧ ∀ p ∈ partsOf (split_file (some full) L base suff ext),
          ∃ i, p.1 = base ++ suff ++ (Nat.repr i).data ++ resolveExt ext) := by
  have hnames : ∀ (uf : Bool), ∀ p ∈ split_loop full L uf base suff ext
      0 (total_size_of full) 0, ∃ i, p.1 = part_name uf base suff ext i := by
    intro uf p hp
    have h1 : p.1 ∈ (split_loop full L uf base suff ext
        0 (total_size_of full) 0).map Prod.fst :=
      List.mem_map_of_mem Prod.fst hp
    rw [split_loop_fst full L uf base suff ext hL] at h1
    rcases List.mem_map.mp h1 with ⟨i, _, hi⟩
    exact ⟨i, hi.symm⟩
  constructor
  · intro h
    have huf : (decide (10 < num_splits_of full L)) = true := decide_eq_true h
    constructor
    · rw [split_file_some, huf]
      rfl
    · intro p hp
      rw [split_file_some, huf, partsOf_ok] at hp
      rcases hnames true p hp with ⟨i, hi⟩
      refine ⟨base ++ suff ++ (Nat.repr i).data ++ resolveExt ext, ?_⟩
      rw [hi]
      simp [part_name, List.append_assoc]
  · intro h
    have huf : (decide (10 < num_splits_of full L)) = false :=
      decide_eq_false (by omega)
    constructor
    · rw [split_file_some, huf]
      rfl
    · intro p hp
      rw [split_file_some, huf, partsOf_ok] at hp
      rcases hnames false p hp with ⟨i, hi⟩
      exact ⟨i, by rw [hi]; simp [part_name]⟩

/-- Witness for C5 at a one-byte file and limit 1000. -/
theorem output_folder_threshold_witness :
    1 ≤ (1000 : Nat)
    ∧ ((10 < num_splits_of [1] 1000 →
        usedFolderOf (split_file (some [1]) 1000 ("a").data ("_part").data []) = true
        ∧ ∀ p ∈ partsOf (split_file (some [1]) 1000 ("a").data ("_part").data []),
            ∃ rest, p.1 = ("output/").data ++ rest)
      ∧ (num_splits_of [1] 1000 ≤ 10 →
        usedFolderOf (split_file (some [1]) 1000 ("a").data ("_part").data []) = false
        ∧ ∀ p ∈ partsOf (split_file (some [1]) 1000 ("a").data ("_part").data []),
            ∃ i, p.1 = ("a").data ++ ("_part").data ++ (Nat.repr i).data
              ++ resolveExt [])) :=
  ⟨by norm_num, output_folder_threshold [1] 1000 _ _ _ (by norm_num)⟩

end Splitsies

namespace Splitsies

/-- C4: the joiner's final output file contents equal the flattened
concatenation of the contents of exactly the regular entries whose filename
contains the suffix token, taken in the order produced by the sort; that
order is ascending under the lexical (not numeric-aware) comparison `entryLe`
(`Pairwise` of the sorted list) and is a permutation of the matched set; in
particular the name `part10` orders strictly before `part2`. -/
theorem join_is_sorted_concat (entries : List Entry) (suff : List Char) :
    (unsplit_file true entries suff).2
      = some ((sortLe entryLe (entries.filter (matchesSuffix suff))).map
          Entry.contents).flatten
    ∧ (sortLe entryLe (entries.filter (matchesSuffix suff))).Pairwise
        (fun a b => entryLe a b = true)
    ∧ (sortLe entryLe (entries.filter (matchesSuffix suff))).Perm
        (entries.filter (matchesSuffix suff))
    ∧ lexLt ("part10").data ("part2").data = true := by
  refine ⟨?_, sortLe_pairwise entryLe entryLe_total entryLe_trans _,
    sortLe_perm entryLe _, by decide⟩
  rw [unsplit_file_true]
  cases hm : (sortLe entryLe (entries.filter (matchesSuffix suff))).isEmpty with
  | false => simp [hm]
  | true =>
    have hnil : sortLe entryLe (entries.filter (matchesSuffix suff)) = [] := by
      simpa using hm
    rw [hnil]
    rfl

/-- C3 counterexample: splitting a one-byte file with no extension requested
(empty extension string) produces the part filename `a_part0.` — it ends in a
bare `.` separator, not in the numeric index, refuting the claim that such
parts receive no extension. -/
theorem extension_policy_cex :
    partsOf (split_file (some [1]) 1000 ("a").data ("_part").data [])
      = [(("a_part0.").data, [1])]
    ∧ ("a_part0.").data.getLast? = some '.' := by
  constructor
  · have huf : (decide (10 < num_splits_of [1] 1000)) = false := by
      norm_num [num_splits_of, total_size_of, U32]
    have hts : total_size_of [1] = 1 := by norm_num [total_size_of, U32]
    rw [split_file_some, partsOf_ok, huf, hts]
    rw [split_loop]
    norm_num
    rw [split_loop_zero]
    constructor
    · decide
    · rfl
  · rfl

/-- C3 (amended): the extension policy of the split: an extension already
containing the `.` separator is used verbatim; an extension without a
separator gets `.` prepended; when no extension is requested (empty string)
the resolved extension is the bare separator `.` — the part filename ends in
a trailing dot rather than having no extension.  Every part filename is
base, suffix, decimal index and this resolved extension. -/
theorem extension_policy (full : List Nat) (L : Nat) (base suff ext : List Char)
    (hL : 1 ≤ L) :
    (containsSub ['.'] ext = true → resolveExt ext = ext)
    ∧ (containsSub ['.'] ext = false → resolveExt ext = '.' :: ext)
    ∧ resolveExt [] = ['.']
    ∧ (partsOf (split_file (some full) L base suff ext)).map Prod.fst
        = (List.range ((total_size_of full + L - 1) / L)).map
            (part_name (decide (10 < num_splits_of full L)) base suff ext) := by
  refine ⟨?_, ?_, rfl, ?_⟩
  · intro h
    rw [resolveExt, if_pos h]
  · intro h
    rw [resolveExt, if_neg (by simp [h])]
  · rw [split_file_some, partsOf_ok, split_loop_fst full L _ base suff ext hL,
      List.range_eq_range']

/-- Witness for C3 (amended) at extension `bin`, a one-byte file, limit 1000. -/
theorem extension_policy_witness :
    1 ≤ (1000 : Nat)
    ∧ ((containsSub ['.'] ("bin").data = true
          → resolveExt ("bin").data = ("bin").data)
      ∧ (containsSub ['.'] ("bin").data = false
          → resolveExt ("bin").data = '.' :: ("bin").data)
      ∧ resolveExt [] = ['.']
      ∧ (partsOf (split_file (some [1]) 1000 ("a").data ("_part").data
            ("bin").data)).map Prod.fst
          = (List.range ((total_size_of [1] + 1000 - 1) / 1000)).map
              (part_name (decide (10 < num_splits_of [1] 1000)) ("a").data
                ("_part").data ("bin").data)) :=
  ⟨by norm_num, extension_policy [1] 1000 _ _ _ (by norm_num)⟩

/-- C8: `total_size` is the true length reduced modulo `2 ^ 32` (strictly
smaller than the true length for a source of at least `2 ^ 32` bytes), the
`num_splits` numerator is itself reduced modulo `2 ^ 32`, and both the number
of parts written and the bytes written are computed from the truncated
length, not the true file size. -/
theorem size_truncation (full : List Nat) (L : Nat) (base suff ext : List Char)
    (hL : 1 ≤ L) (hbig : U32 ≤ full.length) :
    total_size_of full = full.length % U32
    ∧ total_size_of full < full.length
    ∧ num_splits_of full L = ((full.length % U32 + L - 1) % U32) / L
    ∧ (partsOf (split_file (some full) L base suff ext)).length
        = (full.length % U32 + L - 1) / L
    ∧ ((partsOf (split_file (some full) L base suff ext)).map Prod.snd).flatten
        = full.take (full.length % U32) := by
  refine ⟨rfl, ?_, rfl, ?_, ?_⟩
  · calc total_size_of full = full.length % U32 := rfl
      _ < U32 := Nat.mod_lt _ (by norm_num [U32])
      _ ≤ full.length := hbig
  · rw [split_file_some, partsOf_ok, split_loop_length full L _ base suff ext hL]
    rfl
  · rw [split_file_some, partsOf_ok,
      split_loop_snd full L _ base suff ext hL 0 (total_size_of full) 0
        (by simp only [Nat.zero_add, total_size_of]; exact Nat.mod_le _ _),
      List.drop_zero]
    exact chunksOf_flatten L hL _

/-- Witness for C8 at a source of exactly `2 ^ 32` zero bytes and limit 1000. -/
theorem size_truncation_witness :
    1 ≤ (1000 : Nat) ∧ U32 ≤ (List.replicate U32 (0 : Nat)).length
    ∧ (total_size_of (List.replicate U32 (0 : Nat))
          = (List.replicate U32 (0 : Nat)).length % U32
      ∧ total_size_of (List.replicate U32 (0 : Nat))
          < (List.replicate U32 (0 : Nat)).length
      ∧ num_splits_of (List.replicate U32 (0 : Nat)) 1000
          = (((List.replicate U32 (0 : Nat)).length % U32 + 1000 - 1) % U32) / 1000
      ∧ (partsOf (split_file (some (List.replicate U32 (0 : Nat))) 1000
            ("a").data ("_part").data [])).length
          = ((List.replicate U32 (0 : Nat)).length % U32 + 1000 - 1) / 1000
      ∧ ((partsOf (split_file (some (List.replicate U32 (0 : Nat))) 1000
            ("a").data ("_part").data [])).map Prod.snd).flatten
          = (List.replicate U32 (0 : Nat)).take
              ((List.replicate U32 (0 : Nat)).length % U32)) :=
  ⟨by norm_num, by simp, size_truncation _ 1000 _ _ _ (by norm_num) (by simp)⟩

end Splitsies

namespace Splitsies

/-- C2 (amended): for a source of size below `2 ^ 32` and an accepted limit,
the split writes exactly `ceil(T / L)` parts, named with consecutive indices
from 0; their concatenation is exactly the source (every byte in exactly one
part); all sizes equal `L` except the last, which is `T mod L` (or `L` when
`T` is an exact multiple of `L`). -/
theorem chunk_count (full : List Nat) (L : Nat) (base suff ext : List Char)
    (h1 : 1000 ≤ L) (h2 : L ≤ 2 ^ 31 - 1) (hT : full.length < U32) :
    (partsOf (split_file (some full) L base suff ext)).length
        = (full.length + L - 1) / L
    ∧ (partsOf (split_file (some full) L base suff ext)).map Prod.fst
        = (List.range ((full.length + L - 1) / L)).map
            (part_name (decide (10 < num_splits_of full L)) base suff ext)
    ∧ ((partsOf (split_file (some full) L base suff ext)).map Prod.snd).flatten
        = full
    ∧ (full ≠ [] →
        (partsOf (split_file (some full) L base suff ext)).map
            (fun p => p.2.length)
          = List.replicate ((full.length + L - 1) / L - 1) L
            ++ [if full.length % L = 0 then L else full.length % L]) := by
  have hL : 1 ≤ L := by omega
  have hts : total_size_of full = full.length := Nat.mod_eq_of_lt hT
  refine ⟨?_, ?_, ?_, ?_⟩
  · rw [split_file_some, partsOf_ok, split_loop_length full L _ base suff ext hL, hts]
  · rw [split_file_some, partsOf_ok, split_loop_fst full L _ base suff ext hL, hts,
      List.range_eq_range']
  · rw [split_file_some, partsOf_ok,
      split_loop_snd full L _ base suff ext hL 0 (total_size_of full) 0
        (by simp [hts]),
      List.drop_zero, hts, List.take_length]
    exact chunksOf_flatten L hL full
  · intro hne
    rw [split_file_some, partsOf_ok]
    have hsnd := split_loop_snd full L (decide (10 < num_splits_of full L))
      base suff ext hL 0 (total_size_of full) 0 (by simp [hts])
    rw [List.drop_zero, hts, List.take_length] at hsnd
    rw [show (split_loop full L (decide (10 < num_splits_of full L)) base suff ext
          0 (total_size_of full) 0).map (fun p => p.2.length)
        = (chunksOf L full).map List.length by
        rw [hts, ← hsnd, List.map_map]
        rfl]
    exact chunksOf_sizes L hL full hne

/-- Witness for C2 (amended) at a five-byte file and limit 1000. -/
theorem chunk_count_witness :
    1000 ≤ (1000 : Nat) ∧ (1000 : Nat) ≤ 2 ^ 31 - 1
    ∧ ([1, 2, 3, 4, 5] : List Nat).length < U32
    ∧ ((partsOf (split_file (some [1, 2, 3, 4, 5]) 1000 ("a").data
          ("_part").data [])).length
        = (([1, 2, 3, 4, 5] : List Nat).length + 1000 - 1) / 1000
      ∧ (partsOf (split_file (some [1, 2, 3, 4, 5]) 1000 ("a").data
          ("_part").data [])).map Prod.fst
        = (List.range ((([1, 2, 3, 4, 5] : List Nat).length + 1000 - 1) / 1000)).map
            (part_name (decide (10 < num_splits_of [1, 2, 3, 4, 5] 1000))
              ("a").data ("_part").data [])
      ∧ ((partsOf (split_file (some [1, 2, 3, 4, 5]) 1000 ("a").data
          ("_part").data [])).map Prod.snd).flatten = [1, 2, 3, 4, 5]
      ∧ (([1, 2, 3, 4, 5] : List Nat) ≠ [] →
          (partsOf (split_file (some [1, 2, 3, 4, 5]) 1000 ("a").data
            ("_part").data [])).map (fun p => p.2.length)
          = List.replicate ((([1, 2, 3, 4, 5] : List Nat).length + 1000 - 1) / 1000 - 1)
              1000
            ++ [if ([1, 2, 3, 4, 5] : List Nat).length % 1000 = 0 then 1000
                else ([1, 2, 3, 4, 5] : List Nat).length % 1000])) :=
  ⟨by norm_num, by norm_num, by norm_num [U32],
    chunk_count [1, 2, 3, 4, 5] 1000 _ _ _ (by norm_num) (by norm_num)
      (by norm_num [U32])⟩

/-- C2 counterexample: a source of exactly `2 ^ 32` bytes with accepted limit
1000 gets its recorded size truncated to 0, so the split writes 0 parts while
`ceil(T / L)` is far from 0 — the claim fails for sizes at and above `2 ^ 32`. -/
theorem chunk_count_cex :
    1000 ≤ (1000 : Nat) ∧ (1000 : Nat) ≤ 2 ^ 31 - 1
    ∧ (partsOf (split_file (some (List.replicate (2 ^ 32) (0 : Nat))) 1000
        ("a").data ("_part").data [])).length = 0
    ∧ ((List.replicate (2 ^ 32) (0 : Nat)).length + 1000 - 1) / 1000 ≠ 0 := by
  refine ⟨by norm_num, by norm_num, ?_, ?_⟩
  · have hts : total_size_of (List.replicate (2 ^ 32) (0 : Nat)) = 0 := by
      rw [total_size_of, List.length_replicate]
      simp [U32]
    rw [split_file_some, partsOf_ok, hts, split_loop_zero]
    rfl
  · rw [List.length_replicate]
    norm_num

/-- C1 (amended): for a source of size below `2 ^ 32`, any limit `L ≥ 1`
representable in `unsigned int`, and few enough parts that indices stay
single-digit (part count at most 9), splitting and then joining the produced
part files (as the regular entries of the scanned folder) yields an output
file whose bytes equal the original source exactly. -/
theorem round_trip (full : List Nat) (L : Nat) (base suff ext : List Char)
    (hL : 1 ≤ L) (hLu : L < U32) (hT : full.length < U32)
    (hn : (full.length + L - 1) / L ≤ 9) :
    (unsplit_file true
        ((partsOf (split_file (some full) L base suff ext)).map
          (fun p => Entry.mk p.1 true p.2)) suff).2 = some full := by
  have hts : total_size_of full = full.length := Nat.mod_eq_of_lt hT
  by_cases hfull : full = []
  · subst hfull
    rw [split_file_some, partsOf_ok]
    rw [show total_size_of [] = 0 by simp [total_size_of], split_loop_zero]
    rfl
  · have hlen0 : 0 < full.length := List.length_pos.mpr hfull
    rw [split_file_some, partsOf_ok, hts]
    generalize (decide (10 < num_splits_of full L)) = uf
    have hfst := split_loop_fst full L uf base suff ext hL 0 full.length 0
    have hsnd := split_loop_snd full L uf base suff ext hL 0 full.length 0 (by omega)
    rw [List.drop_zero, List.take_length] at hsnd
    rw [unsplit_file_true]
    have hall : ∀ e ∈ (split_loop full L uf base suff ext 0 full.length 0).map
        (fun p => Entry.mk p.1 true p.2), matchesSuffix suff e = true := by
      intro e he
      rcases List.mem_map.mp he with ⟨p, hp, hpe⟩
      have h1 : p.1 ∈ (split_loop full L uf base suff ext 0 full.length 0).map
          Prod.fst := List.mem_map_of_mem Prod.fst hp
      rw [hfst] at h1
      rcases List.mem_map.mp h1 with ⟨i, _, hi⟩
      rw [← hpe]
      simp only [matchesSuffix, Bool.true_and]
      rw [← hi]
      exact containsSub_part_name uf base suff ext i
    have hfiltered := List.filter_eq_self.mpr hall
    rw [hfiltered]
    have hpw : ((split_loop full L uf base suff ext 0 full.length 0).map
        (fun p => Entry.mk p.1 true p.2)).Pairwise
        (fun a b => entryLe a b = true) := by
      rw [List.pairwise_map]
      have h2 : ((split_loop full L uf base suff ext 0 full.length 0).map
          Prod.fst).Pairwise (fun x y => lexLt x y = true) := by
        rw [hfst, ← List.range_eq_range', List.pairwise_map]
        refine (List.pairwise_lt_range _).imp_of_mem ?_
        intro i j hi hj hij
        refine lexLt_part_name uf base suff ext hij ?_
        have hjn := List.mem_range.mp hj
        omega
      rw [List.pairwise_map] at h2
      refine h2.imp ?_
      intro p q h
      simp only [entryLe, lexLe, lexLt_asymm _ _ h, Bool.not_false]
    rw [sortLe_eq_self entryLe _ hpw]
    have hne : ((split_loop full L uf base suff ext 0 full.length 0).map
        (fun p => Entry.mk p.1 true p.2)) ≠ [] := by
      intro h0
      have hlen := congrArg List.length h0
      rw [List.length_map, split_loop_length full L uf base suff ext hL] at hlen
      have hge : 1 ≤ (full.length + L - 1) / L :=
        (Nat.le_div_iff_mul_le (by omega)).mpr (by omega)
      simp at hlen
      omega
    rw [if_neg (fun h => hne (by simpa using h))]
    show some (((split_loop full L uf base suff ext 0 full.length 0).map
        (fun p => Entry.mk p.1 true p.2)).map Entry.contents).flatten = some full
    rw [List.map_map]
    show some (((split_loop full L uf base suff ext 0 full.length 0).map
        Prod.snd).flatten) = some full
    rw [hsnd, chunksOf_flatten L hL full]

/-- Witness for C1 (amended) at a three-byte file and limit 1000. -/
theorem round_trip_witness :
    1 ≤ (1000 : Nat) ∧ (1000 : Nat) < U32 ∧ ([1, 2, 3] : List Nat).length < U32
    ∧ (([1, 2, 3] : List Nat).length + 1000 - 1) / 1000 ≤ 9
    ∧ (unsplit_file true
        ((partsOf (split_file (some [1, 2, 3]) 1000 ("a").data
          ("_part").data [])).map
          (fun p => Entry.mk p.1 true p.2)) ("_part").data).2 = some [1, 2, 3] :=
  ⟨by norm_num, by norm_num [U32], by norm_num [U32], by norm_num,
    round_trip [1, 2, 3] 1000 _ _ _ (by norm_num) (by norm_num [U32])
      (by norm_num [U32]) (by norm_num)⟩

/-- C1 counterexample: a source of exactly `2 ^ 32` zero bytes with limit
`2 ^ 29` satisfies the claim's hypotheses (`L ≥ 1`, true part count 8 ≤ 9),
yet the recorded size truncates to 0, no parts are written, and joining the
produced (empty) part set leaves an empty output file — not the original
bytes.  The claim as stated, over all sizes, is false. -/
theorem round_trip_cex :
    1 ≤ (2 ^ 29 : Nat)
    ∧ ((List.replicate (2 ^ 32) (0 : Nat)).length + 2 ^ 29 - 1) / 2 ^ 29 ≤ 9
    ∧ (unsplit_file true
        ((partsOf (split_file (some (List.replicate (2 ^ 32) (0 : Nat))) (2 ^ 29)
          ("a").data ("_part").data [])).map
          (fun p => Entry.mk p.1 true p.2)) ("_part").data).2
      ≠ some (List.replicate (2 ^ 32) (0 : Nat)) := by
  refine ⟨by norm_num, ?_, ?_⟩
  · rw [List.length_replicate]
    norm_num
  · have hts : total_size_of (List.replicate (2 ^ 32) (0 : Nat)) = 0 := by
      rw [total_size_of, List.length_replicate]
      simp [U32]
    rw [split_file_some, partsOf_ok, hts, split_loop_zero]
    intro hcontra
    have h2 : (unsplit_file true (([] : List (List Char × List Nat)).map
        (fun p => Entry.mk p.1 true p.2)) ("_part").data).2
        = some ([] : List Nat) := rfl
    rw [h2] at hcontra
    have h3 := congrArg List.length (Option.some.inj hcontra)
    rw [List.length_replicate] at h3
    norm_num at h3

end Splitsies
